import Mathlib


/-!
# Verification of the training-log-explorer analytics core

Shallow embedding of the analytics logic of the `training-log-explorer`
repository (a Next.js app that explores a weight-calibration training log).
The embedded functions are translated from:

* `src/components/MetricsSummary.tsx` — epoch selection, quality classification;
* `src/components/IncomeBands.tsx`   — income-source extraction, `parseBand`,
  `bandsData` band aggregation;
* `src/components/LocalAreas.tsx`    — `getLocalAreaData`, `overviewData`
  geographic aggregation;
* `src/app/page.tsx`                 — the CSV ingestion contract (numeric
  fields are `parseFloat(v) || 0`, so record fields are finite numbers,
  modelled as `ℚ`; epochs are `parseInt(v) || 0`, modelled as `ℕ` following
  the data model's `u32`).

Strings are modelled as `List Char`.  JavaScript numbers arising from
`parseFloat` of arbitrary strings are modelled by `JsNum` (a rational, an
infinity, or `NaN`); exceptions are modelled with `Except Unit`.
-/

/-- Strings, modelled as lists of characters. -/
abbrev Str := List Char

/-! ## JavaScript number model -/

/-- A JavaScript `number` as produced by `parseFloat`: an exact finite value
(doubles are embedded in `ℚ`), one of the two infinities, or `NaN`. -/
inductive JsNum : Type
  | nan : JsNum
  | inf : JsNum
  | ninf : JsNum
  | num : ℚ → JsNum
deriving DecidableEq

/-- Whether a `JsNum` is a finite number. -/
def JsNum.isNum : JsNum → Bool
  | num _ => true
  | _ => false

/-- IEEE `<=` on JavaScript numbers: any comparison with `NaN` is false. -/
def jsLe : JsNum → JsNum → Bool
  | .nan, _ => false
  | _, .nan => false
  | .num a, .num b => decide (a ≤ b)
  | .num _, .inf => true
  | .num _, .ninf => false
  | .inf, .inf => true
  | .inf, _ => false
  | .ninf, _ => true

/-- The boolean "keep `a` before `b`" order induced by a JavaScript sort
comparator `(a, b) => a - b`: ECMAScript `SortCompare` treats a `NaN`
comparator result as `+0`, i.e. as a tie.  Written by case analysis on the
comparator's subtraction: `a - b ≤ 0` for finite values, `NaN` results
(`NaN` operands, `inf - inf`, `ninf - ninf`) are ties. -/
def sortLe (a b : JsNum) : Bool :=
  match a, b with
  | .num a, .num b => decide (a ≤ b)
  | .num _, .inf => true
  | .num _, .ninf => false
  | .inf, .num _ => false
  | .inf, .ninf => false
  | .ninf, .num _ => true
  | .ninf, .inf => true
  | _, _ => true

/-! ## Character and digit-string helpers -/

/-- Value of a digit string read in base 10, most significant digit first
(the behaviour of `parseInt` on an all-digit string). -/
def digitsToNat (l : Str) : ℕ := l.foldl (fun a c => 10 * a + (c.toNat - 48)) 0

/-- Base-10 digit characters of `n`, most significant first, by structural
recursion on a fuel bound (`[]` for `n = 0`). -/
def natCharsAux : ℕ → ℕ → Str
  | 0, _ => []
  | _ + 1, 0 => []
  | fuel + 1, n => natCharsAux fuel (n / 10) ++ [Char.ofNat (48 + n % 10)]

/-- Base-10 rendering of a natural number as characters. -/
def natChars (n : ℕ) : Str :=
  if n = 0 then ['0'] else natCharsAux n n

/-- ASCII whitespace skipped by `parseFloat`. -/
def isSpaceCh (c : Char) : Bool := c = ' ' || c = '\t' || c = '\n' || c = '\r'

/-- Exponent part after `e`/`E`: optional sign then digits (0 when absent),
returned as a sign flag and a magnitude. -/
def expVal : Str → Bool × ℕ
  | '-' :: t => (true, digitsToNat (t.takeWhile Char.isDigit))
  | '+' :: t => (false, digitsToNat (t.takeWhile Char.isDigit))
  | t => (false, digitsToNat (t.takeWhile Char.isDigit))

/-- Model of JavaScript `parseFloat`: skip leading whitespace, optional sign,
the `Infinity` literal or a decimal literal (longest valid numeric prefix,
optional exponent); `NaN` when no numeric prefix exists.  The value
`sign * intpart.fracpart * 10 ^ exp` is assembled as one exact rational
`mkRat`. -/
def jsParseFloat (l0 : Str) : JsNum :=
  let l1 := l0.dropWhile isSpaceCh
  let neg := l1.head? = some '-'
  let l := if l1.head? = some '-' || l1.head? = some '+' then l1.tail else l1
  if "Infinity".toList.isPrefixOf l then (if neg then .ninf else .inf)
  else
    let ip := l.takeWhile Char.isDigit
    let l2 := l.dropWhile Char.isDigit
    let fp := if l2.head? = some '.' then l2.tail.takeWhile Char.isDigit else []
    let l3 := if l2.head? = some '.' then l2.tail.dropWhile Char.isDigit else l2
    if ip.isEmpty && fp.isEmpty then .nan
    else
      let e : Bool × ℕ := if l3.head? = some 'e' || l3.head? = some 'E' then expVal l3.tail else (false, 0)
      let m : ℕ := digitsToNat ip * 10 ^ fp.length + digitsToNat fp
      let numN : ℕ := if e.1 then m else m * 10 ^ e.2
      let den : ℕ := if e.1 then 10 ^ fp.length * 10 ^ e.2 else 10 ^ fp.length
      .num (mkRat (if neg then -(numN : ℤ) else (numN : ℤ)) den)

/-- Index of the first occurrence of `pat` in a list (JS `indexOf`). -/
def findSeq (pat : Str) : Str → Option ℕ
  | [] => if pat.isEmpty then some 0 else none
  | c :: t => if pat.isPrefixOf (c :: t) then some 0 else (findSeq pat t).map (· + 1)

/-- JS `String.prototype.includes`. -/
def hasSeq (pat l : Str) : Bool := (findSeq pat l).isSome

/-- JS `String.prototype.split` with a single-character separator. -/
def splitCh (sep : Char) : Str → List Str
  | [] => [[]]
  | c :: t =>
    match splitCh sep t with
    | [] => [[]]
    | seg :: rest => if c = sep then [] :: seg :: rest else (c :: seg) :: rest

/-- Leftmost-match regex search: try a matcher at every start position,
left to right (the behaviour of `String.prototype.match` with an unanchored
pattern). -/
def scanFirst {α : Type} (f : Str → Option α) : Str → Option α
  | [] => f []
  | c :: t =>
    match f (c :: t) with
    | some a => some a
    | none => scanFirst f t

/-! ## The metric identifier parser (`IncomeBands.tsx`) -/

/-- The literal marker of the banded-metric regex `/income_band_(\d+)_(.+)/`. -/
def bandMarker : Str := "income_band_".toList

/-- Attempt the regex `income_band_(\d+)_(.+)` at one start position:
the literal marker, then a maximal non-empty digit run (`\d+` is greedy and
must be followed by `_`, which no shorter run can be), then `_`, then a
non-empty remainder.  Returns `parseInt` of the digit group and the
remainder (group 2, which `.+` extends to the end of the string). -/
def tryBandAt (l : Str) : Option (ℕ × Str) :=
  if bandMarker.isPrefixOf l then
    let r := l.drop bandMarker.length
    let ds := r.takeWhile Char.isDigit
    let r1 := r.dropWhile Char.isDigit
    if ds.isEmpty then none
    else
      match r1 with
      | '_' :: rest => if rest.isEmpty then none else some (digitsToNat ds, rest)
      | _ => none
  else none

/-- The `'_to_'` separator used by `range.split('_to_')`. -/
def toSepChars : Str := "_to_".toList

/-- A parsed income band (`IncomeBand` in `IncomeBands.tsx`; the
locale-formatted `displayRange` field is presentational and omitted). -/
structure IncomeBand where
  bandNumber : ℕ
  range : Str
  lowerBound : JsNum
  upperBound : Option JsNum
deriving DecidableEq

/-- `parseBand` from `IncomeBands.tsx` (lines 68–93).  `Except.error ()`
models the `TypeError` thrown when the regex matches but the range contains
no `'_to_'`: destructuring `[lowerStr, upperStr]` leaves `upperStr`
`undefined`, and `upperStr.replace(/_/g, '')` throws.  `.ok none` is the
`null` return when the regex does not match. -/
def parseBand (bandString : Str) : Except Unit (Option IncomeBand) :=
  match scanFirst tryBandAt bandString with
  | none => .ok none
  | some (bandNumber, range) =>
    match findSeq toSepChars range with
    | none => .error ()
    | some i =>
      let lowerStr := range.take i
      let r := range.drop (i + 4)
      let upperStr := match findSeq toSepChars r with
        | none => r
        | some j => r.take j
      let lowerBound := jsParseFloat (lowerStr.filter fun c => c ≠ '_')
      if upperStr = "inf".toList then
        .ok (some ⟨bandNumber, range, lowerBound, none⟩)
      else
        .ok (some ⟨bandNumber, range, lowerBound,
          some (jsParseFloat (upperStr.filter fun c => c ≠ '_'))⟩)

/-- Tail patterns of the income-source regex `/^(.+?)_(?:count_)?income_band_/`:
after the lazily-matched source, the string must continue with
`_count_income_band_` (the greedy optional group) or `_income_band_`. -/
def srcMatchAt (rest : Str) : Bool :=
  "_count_income_band_".toList.isPrefixOf rest || "_income_band_".toList.isPrefixOf rest

/-- The lazy `(.+?)` scan: grow the candidate source one character at a time
and stop at the first non-empty candidate whose remainder matches the tail
pattern.  Returns the shortest such candidate (`match[1]`). -/
def srcLoop (pre : Str) : Str → Option Str
  | [] => none
  | c :: t => if srcMatchAt (c :: t) && !pre.isEmpty then some pre else srcLoop (pre ++ [c]) t

/-- The income-source extraction of `IncomeBands.tsx` (lines 45–59): require
`metric.includes('income_band_')`, split on `'/'`, require at least two
parts, and run `/^(.+?)_(?:count_)?income_band_/` on `parts[1]`. -/
def extractIncomeSource (metric : Str) : Option Str :=
  if hasSeq bandMarker metric then
    match splitCh '/' metric with
    | _ :: metricPart :: _ => srcLoop [] metricPart
    | _ => none
  else none

/-- The two metric kinds distinguished by the `count_` infix marker. -/
inductive MetricKind : Type
  | amount : MetricKind
  | count : MetricKind
deriving DecidableEq

/-- The filter string of `bandsData`:
`hmrc/${source}_income_band_` or `hmrc/${source}_count_income_band_`. -/
def bandPfx (source : Str) (k : MetricKind) : Str :=
  match k with
  | .amount => "hmrc/".toList ++ source ++ "_income_band_".toList
  | .count => "hmrc/".toList ++ source ++ "_count_income_band_".toList

/-! ## Records (`TrainingLogData`, `src/types/training-log.ts`) -/

/-- One row of the training log.  Numeric fields are parsed by
`parseFloat(v) || 0` in `page.tsx`, which yields a finite number, so they
are modelled as `ℚ`; `epoch` is a non-negative integer (`u32` in the data
model). -/
structure TrainingRec where
  index : Str
  name : Str
  metric : Str
  estimate : ℚ
  target : ℚ
  error : ℚ
  absError : ℚ
  relAbsError : ℚ
  validated : Bool
  epoch : ℕ
deriving DecidableEq

/-! ## Epoch selection (identical in `MetricsSummary.tsx`, `IncomeBands.tsx`,
`Charts.tsx`, `LocalAreas.tsx`) -/

/-- `data.reduce((max, item) => Math.max(max, item.epoch), 0)`. -/
def maxEpoch (data : List TrainingRec) : ℕ :=
  data.foldl (fun mx r => max mx r.epoch) 0

/-- `Array.from(new Set(data.map(item => item.epoch))).sort((a, b) => a - b)`:
the sorted list of distinct epochs. -/
def allEpochs (data : List TrainingRec) : List ℕ :=
  List.insertionSort (· ≤ ·) (data.map (·.epoch)).dedup

/-- `Math.max(1, Math.floor(allEpochs.length / 100))`. -/
def epochStep (data : List TrainingRec) : ℕ :=
  max 1 ((allEpochs data).length / 100)

/-- `allEpochs.filter((_, index) => index % epochStep === 0 || allEpochs[index] === maxEpoch)`. -/
def selectedEpochs (data : List TrainingRec) : List ℕ :=
  (((allEpochs data).enum.filter fun p =>
    p.1 % epochStep data == 0 || p.2 == maxEpoch data).map Prod.snd)

/-- `data.filter(item => selectedEpochs.includes(item.epoch))`. -/
def filteredData (data : List TrainingRec) : List TrainingRec :=
  data.filter fun r => (selectedEpochs data).contains r.epoch

/-- `filteredData.filter(item => item.epoch === maxEpoch)`. -/
def latestData (data : List TrainingRec) : List TrainingRec :=
  (filteredData data).filter fun r => r.epoch == maxEpoch data

/-! ## Quality classification (`MetricsSummary.tsx` lines 29–31) -/

/-- The threshold literal `0.05`. -/
def thrExcellent : ℚ := mkRat 5 100

/-- The threshold literal `0.20`. -/
def thrGood : ℚ := mkRat 20 100

/-- `item.rel_abs_error < 0.05`. -/
def isExcellent (x : ℚ) : Bool := decide (x < thrExcellent)

/-- `item.rel_abs_error >= 0.05 && item.rel_abs_error < 0.20`. -/
def isGood (x : ℚ) : Bool := decide (thrExcellent ≤ x) && decide (x < thrGood)

/-- `item.rel_abs_error >= 0.20`. -/
def isPoor (x : ℚ) : Bool := decide (thrGood ≤ x)

/-- `latestData.filter(item => item.rel_abs_error < 0.05).length`. -/
def excellentCount (data : List TrainingRec) : ℕ :=
  ((latestData data).filter fun r => isExcellent r.relAbsError).length

/-- `latestData.filter(item => item.rel_abs_error >= 0.05 && item.rel_abs_error < 0.20).length`. -/
def goodCount (data : List TrainingRec) : ℕ :=
  ((latestData data).filter fun r => isGood r.relAbsError).length

/-- `latestData.filter(item => item.rel_abs_error >= 0.20).length`. -/
def poorCount (data : List TrainingRec) : ℕ :=
  ((latestData data).filter fun r => isPoor r.relAbsError).length

/-- `latestData.length`. -/
def totalEntries (data : List TrainingRec) : ℕ := (latestData data).length

/-- `(excellentCount * 100 + goodCount * 75) / totalEntries` as a JavaScript
number (`0 / 0` is `NaN`). -/
def qualityScore (data : List TrainingRec) : JsNum :=
  if totalEntries data = 0 then .nan
  else .num ((excellentCount data * 100 + goodCount data * 75 : ℚ) / (totalEntries data : ℚ))

/-- `latestData.reduce((sum, item) => sum + item.rel_abs_error, 0) / totalEntries`
as a JavaScript number. -/
def avgRelAbsError (data : List TrainingRec) : JsNum :=
  if totalEntries data = 0 then .nan
  else .num (((latestData data).foldl (fun s r => s + r.relAbsError) 0) / (totalEntries data : ℚ))

/-! ## Band aggregation (`bandsData`, `IncomeBands.tsx` lines 95–120) -/

/-- One element of the `bandsData` series (`IncomeBandData`). -/
structure IncomeBandData where
  band : IncomeBand
  estimate : ℚ
  target : ℚ
  error : ℚ
  relAbsError : ℚ
deriving DecidableEq

/-- The `bandMetrics.forEach` loop: parse each metric (`parseBand` may
throw, which aborts the whole computation), keep a point for every non-null
band whose number is not 55, in input order. -/
def collectBands : List TrainingRec → Except Unit (List IncomeBandData)
  | [] => .ok []
  | r :: t =>
    match parseBand r.metric with
    | .error e => .error e
    | .ok none => collectBands t
    | .ok (some b) =>
      match collectBands t with
      | .error e => .error e
      | .ok rest =>
        .ok (if b.bandNumber = 55 then rest
             else ⟨b, r.estimate, r.target, r.error, r.relAbsError⟩ :: rest)

/-- Stable insertion into a list according to a boolean "keep before" test
(model of one step of a stable JavaScript `Array.prototype.sort`). -/
def insertCmp {α : Type} (le : α → α → Bool) (x : α) : List α → List α
  | [] => [x]
  | y :: t => if le x y then x :: y :: t else y :: insertCmp le x t

/-- Stable sort by a boolean "keep before" test (model of
`Array.prototype.sort` with a comparator). -/
def sortCmp {α : Type} (le : α → α → Bool) : List α → List α
  | [] => []
  | x :: t => insertCmp le x (sortCmp le t)

/-- The `bandsData` comparator `(a, b) => a.band.lowerBound - b.band.lowerBound`. -/
def bandLe (a b : IncomeBandData) : Bool := sortLe a.band.lowerBound b.band.lowerBound

/-- `bandsData` from `IncomeBands.tsx`: empty for an empty source, otherwise
filter `latestData` to metrics starting with the selected prefix, collect
parsed bands (excluding band 55), and sort ascending by `lowerBound`. -/
def bandsData (latest : List TrainingRec) (selectedSource : Str) (metricType : MetricKind) :
    Except Unit (List IncomeBandData) :=
  if selectedSource.isEmpty then .ok []
  else
    match collectBands (latest.filter fun r => (bandPfx selectedSource metricType).isPrefixOf r.metric) with
    | .error e => .error e
    | .ok bands => .ok (sortCmp bandLe bands)

/-! ## Geographic aggregation (`LocalAreas.tsx`) -/

/-- A catalogue entry of `ageBands` / `employmentBands`. -/
structure BandSpec where
  metric : Str
  label : Str
deriving DecidableEq

/-- The fixed `ageBands` catalogue. -/
def ageBands : List BandSpec :=
  [⟨"age/0_10".toList, "0-10 years".toList⟩,
   ⟨"age/10_20".toList, "10-20 years".toList⟩,
   ⟨"age/20_30".toList, "20-30 years".toList⟩,
   ⟨"age/30_40".toList, "30-40 years".toList⟩,
   ⟨"age/40_50".toList, "40-50 years".toList⟩,
   ⟨"age/50_60".toList, "50-60 years".toList⟩,
   ⟨"age/60_70".toList, "60-70 years".toList⟩,
   ⟨"age/70_80".toList, "70-80 years".toList⟩]

/-- The fixed `employmentBands` catalogue. -/
def employmentBands : List BandSpec :=
  [⟨"hmrc/employment_income/amount/20000_30000".toList, "£20K-£30K".toList⟩,
   ⟨"hmrc/employment_income/amount/30000_40000".toList, "£30K-£40K".toList⟩,
   ⟨"hmrc/employment_income/amount/40000_50000".toList, "£40K-£50K".toList⟩,
   ⟨"hmrc/employment_income/amount/50000_70000".toList, "£50K-£70K".toList⟩,
   ⟨"hmrc/employment_income/amount/70000_100000".toList, "£70K-£100K".toList⟩,
   ⟨"hmrc/employment_income/amount/100000_150000".toList, "£100K-£150K".toList⟩]

/-- The `analysisType` dropdown value. -/
inductive AnalysisKind : Type
  | age : AnalysisKind
  | employment : AnalysisKind
deriving DecidableEq

/-- One surviving data point of a constituency. -/
structure AreaPoint where
  category : Str
  estimate : ℚ
  target : ℚ
  error : ℚ
  relAbsError : ℚ
deriving DecidableEq

/-- `LocalAreaData`. -/
structure LocalAreaData where
  constituency : Str
  dataPoints : List AreaPoint
  totalError : ℚ
  avgRelError : ℚ
deriving DecidableEq

/-- The fixed band catalogue selected by the `analysisType` dropdown. -/
def catalogueOf : AnalysisKind → List BandSpec
  | .age => ageBands
  | .employment => employmentBands

/-- `getLocalAreaData` from `LocalAreas.tsx` (lines 71–97): per catalogue
band, look up the record by exact metric match (`find`), default all fields
to 0 when absent (`item?.x || 0`, which is the identity on finite numbers
apart from mapping an absent record to 0), keep only points with
`target > 0`, and average `rel_abs_error` over survivors, defaulting the
average of an empty survivor list to 0. -/
def getLocalAreaData (latest : List TrainingRec) (analysisType : AnalysisKind)
    (constituency : Str) : LocalAreaData :=
  let constituencyData := latest.filter fun r => r.name == constituency
  let bands := catalogueOf analysisType
  let dataPoints : List AreaPoint := (bands.map fun band =>
      match constituencyData.find? fun r => r.metric == band.metric with
      | some item => (⟨band.label, item.estimate, item.target, item.error, item.relAbsError⟩ : AreaPoint)
      | none => (⟨band.label, 0, 0, 0, 0⟩ : AreaPoint)).filter fun point => decide (0 < point.target)
  let totalError := dataPoints.foldl (fun s p => s + |p.error|) 0
  let avgRelError := if 0 < dataPoints.length then
      (dataPoints.foldl (fun s p => s + p.relAbsError) 0) / (dataPoints.length : ℚ)
    else 0
  ⟨constituency, dataPoints, totalError, avgRelError⟩

/-- Lexicographic order on strings (JavaScript default `sort()` comparison). -/
def strLe : Str → Str → Bool
  | [], _ => true
  | _ :: _, [] => false
  | a :: s, b :: t => if a = b then strLe s t else decide (a < b)

/-- `Array.from(new Set(latestData.map(item => item.name))).sort()`. -/
def constituencies (latest : List TrainingRec) : List Str :=
  sortCmp strLe (latest.map (·.name)).dedup

/-- The comparator `(a, b) => a.avgRelError - b.avgRelError` on finite
averages. -/
def areaLe (a b : LocalAreaData) : Bool := decide (a.avgRelError ≤ b.avgRelError)

/-- The result of `overviewData`. -/
structure OverviewData where
  best : List LocalAreaData
  worst : List LocalAreaData
  average : JsNum
deriving DecidableEq

/-- `overviewData` from `LocalAreas.tsx` (lines 123–133): all areas with at
least one surviving point, sorted ascending by `avgRelError`; `best` is the
first five, `worst` the last five reversed, and `average` the unweighted
mean over the sorted list (`0 / 0` is `NaN` when no area survives). -/
def overviewData (latest : List TrainingRec) (analysisType : AnalysisKind) : OverviewData :=
  let allAreas := (constituencies latest).map fun c => getLocalAreaData latest analysisType c
  let sorted := sortCmp areaLe (allAreas.filter fun a => decide (0 < a.dataPoints.length))
  { best := sorted.take 5
    worst := (sorted.drop (sorted.length - 5)).reverse
    average := if sorted.length = 0 then .nan
      else .num ((sorted.foldl (fun s a => s + a.avgRelError) 0) / (sorted.length : ℚ)) }

/-! ## The banded-metric constructor (spec side of the round-trip claim)

`mkBandMetric` follows the spec's words: the known format
`<source>_income_band_<N>_<lower>_to_<upper-or-inf>` under the `hmrc/`
feed namespace, with a `count_` infix right before `income_band` for the
count kind and `inf` for an open upper bound. -/

/-- The marker segment between the source and the band number. -/
def kindMid : MetricKind → Str
  | .amount => "_income_band_".toList
  | .count => "_count_income_band_".toList

/-- The rendering of the upper bound: digits, or `inf` for an open band. -/
def upperChars : Option ℕ → Str
  | none => "inf".toList
  | some u => natChars u

/-- Construct a banded metric string from a tuple, per the spec's format. -/
def mkBandMetric (source : Str) (k : MetricKind) (n lower : ℕ) (upper : Option ℕ) : Str :=
  "hmrc/".toList ++ source ++ kindMid k ++
    natChars n ++ ['_'] ++ natChars lower ++ "_to_".toList ++ upperChars upper

/-- The structured tuple recovered from a banded metric string. -/
structure BandTuple where
  source : Str
  kind : MetricKind
  bandNumber : ℕ
  lowerBound : JsNum
  upperBound : Option JsNum
deriving DecidableEq

/-- The composite parse of a banded metric as the components perform it:
the income source via `extractIncomeSource`, the kind via which `bandsData`
filter string the metric satisfies for that source, and the band via
`parseBand`. -/
def recoverTuple (metric : Str) : Except Unit (Option BandTuple) :=
  match extractIncomeSource metric with
  | none => .ok none
  | some s =>
    let k : Option MetricKind :=
      if (bandPfx s .count).isPrefixOf metric then some .count
      else if (bandPfx s .amount).isPrefixOf metric then some .amount
      else none
    match k with
    | none => .ok none
    | some kk =>
      match parseBand metric with
      | .error e => .error e
      | .ok none => .ok none
      | .ok (some b) => .ok (some ⟨s, kk, b.bandNumber, b.lowerBound, b.upperBound⟩)

deriving instance DecidableEq for Except

set_option maxRecDepth 100000

/-! ## Concrete input data used by the code-bug and counterexample theorems -/

/-- A demo record with the given name, metric, target, relative error and
epoch (the remaining fields are fixed harmless values). -/
def demoRec (nm metric : Str) (tgt rae : ℚ) (ep : ℕ) : TrainingRec :=
  ⟨[], nm, metric, 1, tgt, 0, 0, rae, true, ep⟩

/-- A table with 102 distinct epochs `0..101`. -/
def manyEpochsData : List TrainingRec :=
  (List.range 102).map fun i => demoRec "A".toList "m".toList 1 0 i

/-- A latest-epoch slice holding one metric whose range has no `_to_`
separator. -/
def noToSepData : List TrainingRec :=
  [demoRec "A".toList "hmrc/x_income_band_3_1000".toList 1 0 5]

/-- A latest-epoch slice in which the only catalogue record of area `A` has
`target = 0`, so every point of every area is dropped. -/
def zeroTargetData : List TrainingRec :=
  [demoRec "A".toList "age/0_10".toList 0 0 5]

/-- A one-record table used to instantiate the universally quantified
theorems. -/
def demoTable : List TrainingRec := [demoRec "A".toList "age/0_10".toList 1 0 5]

/-! ## C7: the band series — sortedness and the band-55 exclusion -/

/-- Boolean check that every adjacent pair of the series satisfies
`lowerBound_i <= lowerBound_{i+1}` under the IEEE order (false for `NaN`). -/
def pairwiseSortedLB : List IncomeBandData → Bool
  | [] => true
  | [_] => true
  | a :: b :: t => jsLe a.band.lowerBound b.band.lowerBound && pairwiseSortedLB (b :: t)

/-- "Sorted ascending by `lowerBound`" under the IEEE order. -/
def sortedByLB (l : List IncomeBandData) : Prop := pairwiseSortedLB l = true

instance (l : List IncomeBandData) : Decidable (sortedByLB l) :=
  inferInstanceAs (Decidable (pairwiseSortedLB l = true))

/-- Three records of one source: band 1 has a non-numeric lower bound
(`x`, which `parseFloat` turns into `NaN`), bands 2 and 3 have lower
bounds 5 and 1. -/
def nanBandData : List TrainingRec :=
  [demoRec "A".toList "hmrc/s_income_band_1_x_to_inf".toList 1 0 5,
   demoRec "A".toList "hmrc/s_income_band_2_5_to_inf".toList 1 0 5,
   demoRec "A".toList "hmrc/s_income_band_3_1_to_inf".toList 1 0 5]

/-- The series `bandsData` produces for `nanBandData`: the `NaN` point ties
with everything under the sort comparator and stays first, in front of the
numeric lower bounds 1 and 5. -/
def nanBandList : List IncomeBandData :=
  [⟨⟨1, "x_to_inf".toList, .nan, none⟩, 1, 1, 0, 0⟩,
   ⟨⟨3, "1_to_inf".toList, .num 1, none⟩, 1, 1, 0, 0⟩,
   ⟨⟨2, "5_to_inf".toList, .num 5, none⟩, 1, 1, 0, 0⟩]

/-- Two numeric-band records used to instantiate the amended C7 theorem. -/
def twoBandData : List TrainingRec :=
  [demoRec "A".toList "hmrc/s_income_band_2_5_to_inf".toList 1 0 5,
   demoRec "A".toList "hmrc/s_income_band_3_1_to_inf".toList 1 0 5]

/-- The series `bandsData` produces for `twoBandData`. -/
def twoBandList : List IncomeBandData :=
  [⟨⟨3, "1_to_inf".toList, .num 1, none⟩, 1, 1, 0, 0⟩,
   ⟨⟨2, "5_to_inf".toList, .num 5, none⟩, 1, 1, 0, 0⟩]

/-! ## C5: round-trip of banded metrics

Supporting lemmas about digit renderings, list scanning and the lazy
source regex, leading to the round-trip theorem for well-behaved sources
and a counterexample for pathological ones. -/

/-- Lowercase ASCII letters. -/
def isLowerAlpha (c : Char) : Bool := decide ('a' ≤ c) && decide (c ≤ 'z')

/-- The region segment between the source and the `income_band_` literal of
a constructed metric: `kindMid` splits as this segment plus the marker. -/
def sepChars : MetricKind → Str
  | .amount => ['_']
  | .count => "_count_".toList

/-- The tail of a constructed metric after the `income_band_` marker:
band number, underscore, lower bound, `_to_`, upper bound. -/
def bandTail (n lower : ℕ) (upper : Option ℕ) : Str :=
  natChars n ++ '_' :: (natChars lower ++ toSepChars ++ upperChars upper)

/-! ## Theorems -/

/-! ## C1: the epoch-selection cap -/

/-- C1: the claimed bound `|selected| ≤ cap + 1 = 101` is violated by the
code.  With 102 distinct epochs the step is `max(1, ⌊102 / 100⌋) = 1`, so
every index is a multiple of the step and all 102 epochs are selected; the
claimed cap (and the code's own comment "max 100 epochs") is exceeded. -/
theorem epochSelector_cap_violated :
    (allEpochs manyEpochsData).length = 102 ∧
    epochStep manyEpochsData = 1 ∧
    (selectedEpochs manyEpochsData).length = 102 ∧
    101 < (selectedEpochs manyEpochsData).length := by decide

/-! ## C2: the metric parser can throw -/

/-- C2: `parseBand` is not total.  On a metric whose banded marker is
present but whose range lacks a `'_to_'` separator the destructured
`upperStr` is `undefined` and `upperStr.replace` throws, so the whole
`bandsData` aggregation for that source throws instead of returning a
facet. -/
theorem parseBand_throws_on_missing_to :
    parseBand "hmrc/x_income_band_3_1000".toList = .error () ∧
    bandsData noToSepData "x".toList .amount = .error () := by decide

/-! ## C3: empty-denominator handling in the geographic aggregator -/

/-- C3: a zero-point area is assigned `0` as its mean (the code's
`dataPoints.length > 0 ? … : 0` branch), and when every area has zero
surviving points the overall average is `0 / 0 = NaN` — contradicting the
claim that such values are reported as undefined and are never `NaN` nor
coerced to `0`. -/
theorem geo_zero_points_coerced :
    (getLocalAreaData zeroTargetData .age "A".toList).dataPoints = [] ∧
    (getLocalAreaData zeroTargetData .age "A".toList).avgRelError = 0 ∧
    (overviewData zeroTargetData .age).average = JsNum.nan := by decide

/-! ## C6 and C10: the quality-tier partition -/

/-- C6: the three tier predicates partition `[0, ∞)`: every non-negative
rational satisfies exactly one of them, and the boundary values `0.05`
(`thrExcellent`) and `0.20` (`thrGood`) classify as Good and Poor
respectively, never as Excellent or Good. -/
theorem quality_tiers_partition_nonneg :
    (∀ x : ℚ, 0 ≤ x →
      ((isExcellent x = true ∧ isGood x = false ∧ isPoor x = false) ∨
       (isExcellent x = false ∧ isGood x = true ∧ isPoor x = false) ∨
       (isExcellent x = false ∧ isGood x = false ∧ isPoor x = true))) ∧
    isExcellent thrExcellent = false ∧ isGood thrExcellent = true ∧
    isExcellent thrGood = false ∧ isGood thrGood = false ∧ isPoor thrGood = true := by
  have hEG : thrExcellent < thrGood := by decide
  refine ⟨fun x _ => ?_, by decide, by decide, by decide, by decide, by decide⟩
  by_cases h1 : x < thrExcellent
  · exact Or.inl (by simp [isExcellent, isGood, isPoor, h1, not_le.mpr h1, not_le.mpr (h1.trans hEG)])
  · by_cases h2 : x < thrGood
    · exact Or.inr (Or.inl (by simp [isExcellent, isGood, isPoor, h1, h2, not_le.mpr h2, not_lt.mp h1]))
    · exact Or.inr (Or.inr (by
        have h3 : thrExcellent ≤ x := (not_lt.mp h1)
        have h4 : thrGood ≤ x := not_lt.mp h2
        simp [isExcellent, isGood, isPoor, not_lt.mpr h3, not_lt.mpr (hEG.le.trans h4), h2, h3, h4,
          not_lt_of_le h3]))

/-- Witness for C6: the partition instantiated at the boundary `0`. -/
theorem quality_tiers_partition_nonneg_witness :
    (isExcellent 0 = true ∧ isGood 0 = false ∧ isPoor 0 = false) ∨
    (isExcellent 0 = false ∧ isGood 0 = true ∧ isPoor 0 = false) ∨
    (isExcellent 0 = false ∧ isGood 0 = false ∧ isPoor 0 = true) :=
  quality_tiers_partition_nonneg.1 0 le_rfl

/-- C10: the tier predicates cover every finite rational, not only
`[0, ∞)`: every input satisfies exactly one tier, and every negative input
(reachable because failed numeric parses default to 0 and the feed's
`rel_abs_error` is trusted) classifies as Excellent. -/
theorem quality_tiers_total_all (x : ℚ) :
    ((isExcellent x = true ∧ isGood x = false ∧ isPoor x = false) ∨
     (isExcellent x = false ∧ isGood x = true ∧ isPoor x = false) ∨
     (isExcellent x = false ∧ isGood x = false ∧ isPoor x = true)) ∧
    (x < 0 → isExcellent x = true ∧ isGood x = false ∧ isPoor x = false) := by
  have hEG : thrExcellent < thrGood := by decide
  have h0E : (0 : ℚ) < thrExcellent := by decide
  constructor
  · by_cases h1 : x < thrExcellent
    · exact Or.inl (by simp [isExcellent, isGood, isPoor, h1, not_le.mpr h1,
        not_le.mpr (h1.trans hEG)])
    · by_cases h2 : x < thrGood
      · exact Or.inr (Or.inl (by simp [isExcellent, isGood, isPoor, h1, h2, not_lt.mp h1,
          not_le.mpr h2]))
      · exact Or.inr (Or.inr (by simp [isExcellent, isGood, isPoor, h1, h2, not_lt.mp h2,
          not_lt.mpr (hEG.le.trans (not_lt.mp h2))]))
  · intro hneg
    have h1 : x < thrExcellent := hneg.trans h0E
    exact (by simp [isExcellent, isGood, isPoor, h1, not_le.mpr h1, not_le.mpr (h1.trans hEG)])

/-- Witness for C10: the classifier at the negative input `-1`. -/
theorem quality_tiers_total_all_witness :
    isExcellent (-1) = true ∧ isGood (-1) = false ∧ isPoor (-1) = false :=
  (quality_tiers_total_all (-1)).2 (by norm_num)

/-! ## C4 and C9: the maximum epoch is always selected -/

/-- The seed of a `max`-fold is a lower bound of the result. -/
theorem le_foldl_max (l : List ℕ) (a : ℕ) : a ≤ l.foldl max a := by
  induction l generalizing a with
  | nil => exact le_rfl
  | cons x t ih => exact le_trans (le_max_left a x) (ih (max a x))

/-- Every element of the list is a lower bound of a `max`-fold over it. -/
theorem mem_le_foldl_max (l : List ℕ) (a x : ℕ) (hx : x ∈ l) : x ≤ l.foldl max a := by
  induction l generalizing a with
  | nil => cases hx
  | cons y t ih =>
    rcases List.mem_cons.mp hx with rfl | h
    · exact le_trans (le_max_right a x) (le_foldl_max t _)
    · exact ih _ h

/-- A `max`-fold returns its seed or an element of the list. -/
theorem foldl_max_mem (l : List ℕ) (a : ℕ) : l.foldl max a = a ∨ l.foldl max a ∈ l := by
  induction l generalizing a with
  | nil => exact Or.inl rfl
  | cons x t ih =>
    rw [List.foldl_cons]
    rcases ih (max a x) with h | h
    · rw [h]
      rcases max_choice a x with h' | h'
      · exact Or.inl h'
      · exact Or.inr (by rw [h']; exact List.mem_cons_self x t)
    · exact Or.inr (List.mem_cons_of_mem x h)

/-- On a non-empty table the maximum epoch is attained by some record
(`Math.max` is seeded with 0 and epochs are non-negative). -/
theorem maxEpoch_attained (data : List TrainingRec) (h : data ≠ []) :
    ∃ r ∈ data, r.epoch = maxEpoch data := by
  have hfold : maxEpoch data = (data.map (·.epoch)).foldl max 0 := by
    simp [maxEpoch, List.foldl_map]
  rcases foldl_max_mem (data.map (·.epoch)) 0 with h0 | hmem
  · cases data with
    | nil => exact absurd rfl h
    | cons r t =>
      refine ⟨r, List.mem_cons_self r t, ?_⟩
      have hle : r.epoch ≤ ((r :: t).map (·.epoch)).foldl max 0 :=
        mem_le_foldl_max _ 0 r.epoch (by simp)
      have hz : maxEpoch (r :: t) = 0 := by rw [hfold, h0]
      rw [hz]
      omega
  · rcases List.mem_map.mp hmem with ⟨r, hr, he⟩
    exact ⟨r, hr, by rw [hfold, he]⟩

/-- Membership in the sorted distinct epoch list. -/
theorem mem_allEpochs {a : ℕ} {data : List TrainingRec} :
    a ∈ allEpochs data ↔ ∃ r ∈ data, r.epoch = a := by
  unfold allEpochs
  rw [(List.perm_insertionSort _ _).mem_iff, List.mem_dedup, List.mem_map]

/-- Any element equal to the forced maximum survives the index filter,
whatever the downsampling step. -/
theorem mem_selected_of_eq_max (step mx : ℕ) :
    ∀ (l : List ℕ) (n : ℕ), mx ∈ l →
      mx ∈ ((List.enumFrom n l).filter fun p => p.1 % step == 0 || p.2 == mx).map Prod.snd := by
  intro l
  induction l with
  | nil => intro n hm; cases hm
  | cons x t ih =>
    intro n hm
    rcases List.mem_cons.mp hm with rfl | hm
    · simp [List.enumFrom, List.filter_cons]
    · have htail := ih (n + 1) hm
      simp only [List.enumFrom, List.filter_cons]
      split
      · simpa using Or.inr (by simpa using htail)
      · exact htail

/-- The maximum epoch is a member of the selection of any non-empty table. -/
theorem maxEpoch_mem_selected (data : List TrainingRec) (h : data ≠ []) :
    maxEpoch data ∈ selectedEpochs data := by
  obtain ⟨r, hr, he⟩ := maxEpoch_attained data h
  have hmem : maxEpoch data ∈ allEpochs data := mem_allEpochs.mpr ⟨r, hr, he⟩
  have := mem_selected_of_eq_max (epochStep data) (maxEpoch data) (allEpochs data) 0 hmem
  simpa [selectedEpochs, List.enum] using this

/-- C4: for every non-empty table the maximum epoch is a member of the
selected epoch set, regardless of the downsampling step (the filter keeps
any index whose epoch equals `maxEpoch` unconditionally). -/
theorem maxEpoch_mem_selectedEpochs (data : List TrainingRec) (h : data ≠ []) :
    maxEpoch data ∈ selectedEpochs data :=
  maxEpoch_mem_selected data h

/-- Witness for C4 at a concrete one-record table. -/
theorem maxEpoch_mem_selectedEpochs_witness :
    maxEpoch demoTable ∈ selectedEpochs demoTable :=
  maxEpoch_mem_selectedEpochs demoTable (by decide)

/-- C9: on a non-empty table the latest-epoch slice is non-empty — the
maximum epoch is attained and always survives the epoch filter — so the
quality-summary denominators (`totalEntries`) are strictly positive and the
score and average-error divisions are never division by zero. -/
theorem latestData_nonempty (data : List TrainingRec) (h : data ≠ []) :
    latestData data ≠ [] ∧ 0 < totalEntries data := by
  obtain ⟨r, hr, he⟩ := maxEpoch_attained data h
  have hsel := maxEpoch_mem_selected data h
  have h1 : r ∈ filteredData data := by
    refine List.mem_filter.mpr ⟨hr, ?_⟩
    rw [he]
    simpa [List.contains] using List.elem_iff.mpr hsel
  have h2 : r ∈ latestData data := by
    refine List.mem_filter.mpr ⟨h1, ?_⟩
    simp [he]
  have hne : latestData data ≠ [] := List.ne_nil_of_mem h2
  exact ⟨hne, by simpa [totalEntries, List.length_pos] using hne⟩

/-- Witness for C9 at a concrete one-record table. -/
theorem latestData_nonempty_witness :
    latestData demoTable ≠ [] ∧ 0 < totalEntries demoTable :=
  latestData_nonempty demoTable (by decide)

/-! ## C8: ranked geographic output never contains a zero-point area -/

/-- Membership is preserved by comparator insertion. -/
theorem mem_insertCmp {α : Type} {le : α → α → Bool} {x a : α} {l : List α} :
    a ∈ insertCmp le x l ↔ a = x ∨ a ∈ l := by
  induction l with
  | nil => simp [insertCmp]
  | cons y t ih =>
    unfold insertCmp
    split
    · simp [List.mem_cons]
    · simp only [List.mem_cons, ih]
      tauto

/-- Membership is preserved by the comparator sort. -/
theorem mem_sortCmp {α : Type} {le : α → α → Bool} {a : α} {l : List α} :
    a ∈ sortCmp le l ↔ a ∈ l := by
  induction l with
  | nil => simp [sortCmp]
  | cons x t ih =>
    unfold sortCmp
    rw [mem_insertCmp, ih, List.mem_cons]

/-- Every surviving point of an area has a strictly positive target and
stems from a record with an exactly matching catalogue metric. -/
theorem getLocalAreaData_points (latest : List TrainingRec) (atype : AnalysisKind) (c : Str) :
    ∀ p ∈ (getLocalAreaData latest atype c).dataPoints,
      0 < p.target ∧ ∃ r ∈ latest, r.name = c ∧ r.target = p.target ∧
        ∃ b ∈ catalogueOf atype, r.metric = b.metric ∧ p.category = b.label := by
  intro p hp
  simp only [getLocalAreaData] at hp
  obtain ⟨hmem, hpred⟩ := List.mem_filter.mp hp
  have htgt : 0 < p.target := by simpa using hpred
  obtain ⟨b, hb, hpb⟩ := List.mem_map.mp hmem
  refine ⟨htgt, ?_⟩
  cases hfind : (latest.filter fun r => r.name == c).find? (fun r => r.metric == b.metric) with
  | none =>
    rw [hfind] at hpb
    rw [← hpb] at htgt
    norm_num at htgt
  | some item =>
    rw [hfind] at hpb
    have hitem := List.mem_filter.mp (List.mem_of_find?_eq_some hfind)
    have hname : item.name = c := by simpa using hitem.2
    have hmet : item.metric = b.metric := by simpa using List.find?_some hfind
    exact ⟨item, hitem.1, hname, by rw [← hpb], b, hb, hmet, by rw [← hpb]⟩

/-- Any area appearing among best or worst performers is one of the
per-constituency aggregates and has at least one surviving point. -/
theorem mem_overview (latest : List TrainingRec) (atype : AnalysisKind) (a : LocalAreaData)
    (ha : a ∈ (overviewData latest atype).best ∨ a ∈ (overviewData latest atype).worst) :
    (∃ c, a = getLocalAreaData latest atype c) ∧ 0 < a.dataPoints.length := by
  have hsorted : a ∈ sortCmp areaLe
      ((((constituencies latest).map fun c => getLocalAreaData latest atype c).filter
        fun x => decide (0 < x.dataPoints.length)) : List LocalAreaData) := by
    rcases ha with hb | hw
    · exact List.mem_of_mem_take hb
    · exact List.mem_of_mem_drop (List.mem_reverse.mp hw)
  rw [mem_sortCmp] at hsorted
  obtain ⟨hmem, hpred⟩ := List.mem_filter.mp hsorted
  obtain ⟨c, _, hc⟩ := List.mem_map.mp hmem
  exact ⟨⟨c, hc.symm⟩, by simpa using hpred⟩

/-- C8: the geographic aggregator's ranked output (best performers, worst
performers) never includes an area with zero surviving points; each
surviving point corresponds to a record with an exactly matching catalogue
metric string and a strictly positive target. -/
theorem overview_excludes_empty_areas (latest : List TrainingRec) (atype : AnalysisKind)
    (a : LocalAreaData)
    (ha : a ∈ (overviewData latest atype).best ∨ a ∈ (overviewData latest atype).worst) :
    0 < a.dataPoints.length ∧ ∀ p ∈ a.dataPoints,
      0 < p.target ∧ ∃ r ∈ latest, r.name = a.constituency ∧ r.target = p.target ∧
        ∃ b ∈ catalogueOf atype, r.metric = b.metric ∧ p.category = b.label := by
  obtain ⟨⟨c, rfl⟩, hlen⟩ := mem_overview latest atype a ha
  exact ⟨hlen, getLocalAreaData_points latest atype c⟩

/-- Witness for C8: the one-record demo table, whose single area appears in
the best-performers list. -/
theorem overview_excludes_empty_areas_witness :
    0 < (getLocalAreaData demoTable .age "A".toList).dataPoints.length ∧
    ∀ p ∈ (getLocalAreaData demoTable .age "A".toList).dataPoints,
      0 < p.target ∧ ∃ r ∈ demoTable, r.name = (getLocalAreaData demoTable .age "A".toList).constituency ∧
        r.target = p.target ∧
        ∃ b ∈ catalogueOf .age, r.metric = b.metric ∧ p.category = b.label :=
  overview_excludes_empty_areas demoTable .age _
    (Or.inl (List.mem_singleton.mpr rfl))

/-- The adjacent-pair chain implies the boolean sortedness check. -/
theorem sortedByLB_of_chain' :
    ∀ {l : List IncomeBandData},
      List.Chain' (fun a b => jsLe a.band.lowerBound b.band.lowerBound = true) l →
      sortedByLB l := by
  intro l
  induction l with
  | nil => intro _; rfl
  | cons a t ih =>
    intro h
    cases t with
    | nil => rfl
    | cons b t2 =>
      rw [List.chain'_cons] at h
      have hres := ih h.2
      simp only [sortedByLB, pairwiseSortedLB, Bool.and_eq_true]
      exact ⟨h.1, hres⟩

/-- Counterexample to C7 as stated: for a record set containing a band
whose lower bound does not parse as a number, the returned series is not
sorted ascending by `lowerBound` (no order can place a `NaN` next to a
number under the IEEE order). -/
theorem bandsData_sorted_counterexample :
    bandsData nanBandData "s".toList .amount = .ok nanBandList ∧
    ¬ sortedByLB nanBandList ∧
    (nanBandList.map fun p => p.band.lowerBound) = [.nan, .num 1, .num 5] := by
  refine ⟨by decide, by decide, by decide⟩

/-- A numeric `JsNum` is some rational. -/
theorem isNum_ex {x : JsNum} (h : x.isNum = true) : ∃ q, x = .num q := by
  cases x <;> simp [JsNum.isNum] at h ⊢

/-- Comparator insertion preserves adjacent ordering when the comparator is
total on the elements involved (no transitivity is needed for adjacent
pairs). -/
theorem chain'_insertCmp {α : Type} {le : α → α → Bool} {P : α → Prop}
    (htot : ∀ a b, P a → P b → le a b = true ∨ le b a = true)
    {x : α} {l : List α} (hx : P x) (hl : ∀ a ∈ l, P a)
    (hc : List.Chain' (fun a b => le a b = true) l) :
    List.Chain' (fun a b => le a b = true) (insertCmp le x l) := by
  induction l with
  | nil => simp [insertCmp]
  | cons y t ih =>
    unfold insertCmp
    split
    · exact List.chain'_cons.mpr ⟨by assumption, hc⟩
    · rename_i hxy
      have hyx : le y x = true :=
        (htot x y hx (hl y (List.mem_cons_self y t))).resolve_left hxy
      have hins := ih (fun a ha => hl a (List.mem_cons_of_mem y ha)) hc.tail
      refine List.chain'_cons'.mpr ⟨?_, hins⟩
      intro b hb
      cases t with
      | nil => simp [insertCmp] at hb; subst hb; exact hyx
      | cons z t2 =>
        unfold insertCmp at hb
        rcases hz : le x z with hfalse | htrue
        · rw [hz] at hb
          simp at hb
          subst hb
          exact (List.chain'_cons.mp hc).1
        · rw [hz] at hb
          simp at hb
          subst hb
          exact hyx

/-- The comparator sort returns an adjacently ordered list when the
comparator is total on the elements of the input. -/
theorem chain'_sortCmp {α : Type} {le : α → α → Bool} {P : α → Prop}
    (htot : ∀ a b, P a → P b → le a b = true ∨ le b a = true)
    (l : List α) (hl : ∀ a ∈ l, P a) :
    List.Chain' (fun a b => le a b = true) (sortCmp le l) := by
  induction l with
  | nil => simp [sortCmp]
  | cons x t ih =>
    unfold sortCmp
    exact chain'_insertCmp htot (hl x (List.mem_cons_self x t))
      (fun a ha => hl a (List.mem_cons_of_mem x (mem_sortCmp.mp ha)))
      (ih fun a ha => hl a (List.mem_cons_of_mem x ha))

/-- Transfer of an adjacent ordering along a pointwise implication that may
use a property of the elements. -/
theorem chain'_mem_imp {α : Type} {R S : α → α → Prop} {P : α → Prop} :
    ∀ {l : List α}, List.Chain' R l → (∀ a ∈ l, P a) →
      (∀ a b, P a → P b → R a b → S a b) → List.Chain' S l := by
  intro l
  induction l with
  | nil => intro _ _ _; simp
  | cons a t ih =>
    intro h hm himp
    cases t with
    | nil => simp
    | cons b t2 =>
      rw [List.chain'_cons] at h ⊢
      exact ⟨himp a b (hm a (by simp)) (hm b (by simp)) h.1,
        ih h.2 (fun x hx => hm x (List.mem_cons_of_mem a hx)) himp⟩

/-- No point with band number 55 survives the collection loop. -/
theorem collectBands_no55 :
    ∀ (ms : List TrainingRec) (bands : List IncomeBandData), collectBands ms = .ok bands →
      ∀ p ∈ bands, p.band.bandNumber ≠ 55 := by
  intro ms
  induction ms with
  | nil =>
    intro bands h p hp
    simp only [collectBands] at h
    cases h
    cases hp
  | cons r t ih =>
    intro bands h p hp
    simp only [collectBands] at h
    cases hpb : parseBand r.metric with
    | error e => simp [hpb] at h
    | ok ob =>
      cases ob with
      | none => simp only [hpb] at h; exact ih bands h p hp
      | some b =>
        cases hct : collectBands t with
        | error e => simp [hpb, hct] at h
        | ok rest =>
          simp only [hpb, hct] at h
          by_cases h55 : b.bandNumber = 55
          · rw [if_pos h55] at h
            injection h with h2
            subst h2
            exact ih _ hct p hp
          · rw [if_neg h55] at h
            injection h with h2
            subst h2
            rcases List.mem_cons.mp hp with rfl | hp2
            · exact h55
            · exact ih _ hct p hp2

/-- C7 (amended): no point of a returned band series has band number 55 —
unconditionally — and whenever every lower bound of the series is numeric,
the series is sorted ascending by `lowerBound`. -/
theorem bandsData_sorted_amended (latest : List TrainingRec) (src : Str) (k : MetricKind)
    (l : List IncomeBandData) (hok : bandsData latest src k = .ok l) :
    (∀ p ∈ l, p.band.bandNumber ≠ 55) ∧
    ((∀ p ∈ l, (p.band.lowerBound).isNum = true) → sortedByLB l) := by
  simp only [bandsData] at hok
  split at hok
  · cases hok
    exact ⟨by simp, fun _ => rfl⟩
  · cases hcb : collectBands (latest.filter fun r => (bandPfx src k).isPrefixOf r.metric) with
    | error e => simp [hcb] at hok
    | ok bands =>
      simp only [hcb] at hok
      cases hok
      refine ⟨fun p hp => collectBands_no55 _ bands hcb p (mem_sortCmp.mp hp), ?_⟩
      intro hnum
      have hP : ∀ p ∈ bands, (p.band.lowerBound).isNum = true :=
        fun p hp => hnum p (mem_sortCmp.mpr hp)
      have htot : ∀ a b : IncomeBandData, (a.band.lowerBound).isNum = true →
          (b.band.lowerBound).isNum = true → bandLe a b = true ∨ bandLe b a = true := by
        intro a b ha hb
        obtain ⟨qa, hqa⟩ := isNum_ex ha
        obtain ⟨qb, hqb⟩ := isNum_ex hb
        simp [bandLe, sortLe, hqa, hqb]
        exact le_total qa qb
      have hchain := chain'_sortCmp (P := fun p => (p.band.lowerBound).isNum = true)
        htot bands hP
      refine sortedByLB_of_chain'
        (chain'_mem_imp (P := fun p : IncomeBandData => (p.band.lowerBound).isNum = true)
          hchain (fun p hp => hnum p hp) ?_)
      intro a b ha hb hab
      obtain ⟨qa, hqa⟩ := isNum_ex ha
      obtain ⟨qb, hqb⟩ := isNum_ex hb
      simp [bandLe, sortLe, hqa, hqb] at hab
      simp [jsLe, hqa, hqb, hab]

/-- Witness for the amended C7 at a concrete record set: the band-55
exclusion holds outright, and the numeric-bounds antecedent is discharged
concretely to obtain sortedness. -/
theorem bandsData_sorted_amended_witness :
    (∀ p ∈ twoBandList, p.band.bandNumber ≠ 55) ∧ sortedByLB twoBandList :=
  ⟨(bandsData_sorted_amended twoBandData "s".toList .amount twoBandList (by decide)).1,
   (bandsData_sorted_amended twoBandData "s".toList .amount twoBandList (by decide)).2
     (by decide)⟩

/-- A digit character differs from any concrete non-digit character. -/
theorem ne_of_isDigit {c : Char} (h : c.isDigit = true) {x : Char}
    (hx : x.isDigit = false) : c ≠ x := by
  intro he
  rw [he, hx] at h
  cases h

/-- A lowercase letter differs from any concrete non-letter character. -/
theorem ne_of_alpha {c : Char} (h : isLowerAlpha c = true) {x : Char}
    (hx : isLowerAlpha x = false) : c ≠ x := by
  intro he
  rw [he, hx] at h
  cases h

/-- The fuel-based digit rendering agrees with `Nat.digits`. -/
theorem natCharsAux_eq_digits (n : ℕ) : ∀ fuel : ℕ, n ≤ fuel →
    natCharsAux fuel n = (Nat.digits 10 n).reverse.map fun d => Char.ofNat (48 + d) := by
  induction n using Nat.strong_induction_on with
  | _ n ih =>
    intro fuel hle
    cases fuel with
    | zero =>
      have hn : n = 0 := Nat.le_zero.mp hle
      subst hn
      simp [natCharsAux]
    | succ f =>
      cases n with
      | zero => simp [natCharsAux]
      | succ k =>
        rw [show natCharsAux (f + 1) (k + 1)
            = natCharsAux f ((k + 1) / 10) ++ [Char.ofNat (48 + (k + 1) % 10)] from rfl]
        have hdiv : (k + 1) / 10 < k + 1 := Nat.div_lt_self (Nat.succ_pos k) (by norm_num)
        have hfuel : (k + 1) / 10 ≤ f := by omega
        rw [ih ((k + 1) / 10) hdiv f hfuel]
        rw [Nat.digits_def' (by norm_num : (1:ℕ) < 10) (Nat.succ_pos k)]
        simp

/-- Each digit character is `Char.ofNat (48 + d)` with `d < 10`; such
characters satisfy `Char.isDigit`. -/
theorem isDigit_ofNat_digit (d : ℕ) (hd : d < 10) : (Char.ofNat (48 + d)).isDigit = true := by
  interval_cases d <;> decide

/-- Every character of a digit rendering is a digit. -/
theorem natChars_digits (n : ℕ) : ∀ c ∈ natChars n, c.isDigit = true := by
  intro c hc
  unfold natChars at hc
  split at hc
  · simp at hc
    subst hc
    decide
  · rw [natCharsAux_eq_digits n n le_rfl] at hc
    obtain ⟨d, hd, rfl⟩ := List.mem_map.mp hc
    exact isDigit_ofNat_digit d (Nat.digits_lt_base (by norm_num) (List.mem_reverse.mp hd))

/-- A digit rendering is never empty. -/
theorem natChars_ne_nil (n : ℕ) : natChars n ≠ [] := by
  unfold natChars
  split
  · simp
  · rw [natCharsAux_eq_digits n n le_rfl]
    simp only [ne_eq, List.map_eq_nil_iff, List.reverse_eq_nil_iff]
    exact Nat.digits_ne_nil_iff_ne_zero.mpr (by assumption)

/-- The code of a digit character recovers the digit. -/
theorem toNat_ofNat_digit (d : ℕ) (hd : d < 10) : (Char.ofNat (48 + d)).toNat = 48 + d := by
  interval_cases d <;> decide

/-- Folding the digit-value accumulator over a rendered digit list
computes the positional value. -/
theorem foldl_digit_chars (ds : List ℕ) (hds : ∀ d ∈ ds, d < 10) : ∀ a : ℕ,
    (ds.reverse.map fun d => Char.ofNat (48 + d)).foldl (fun acc c => 10 * acc + (c.toNat - 48)) a
      = a * 10 ^ ds.length + Nat.ofDigits 10 ds := by
  induction ds with
  | nil => intro a; simp [Nat.ofDigits_nil]
  | cons d t ih =>
    intro a
    have hd : d < 10 := hds d (List.mem_cons_self d t)
    have ht : ∀ x ∈ t, x < 10 := fun x hx => hds x (List.mem_cons_of_mem d hx)
    rw [List.reverse_cons, List.map_append, List.foldl_append, ih ht a]
    simp only [List.map_cons, List.map_nil, List.foldl_cons, List.foldl_nil,
      toNat_ofNat_digit d hd, Nat.ofDigits_cons, List.length_cons]
    have : 48 + d - 48 = d := by omega
    rw [this]
    ring

/-- `parseInt` of a digit rendering recovers the number. -/
theorem digitsToNat_natChars (n : ℕ) : digitsToNat (natChars n) = n := by
  unfold natChars
  split
  · rename_i h
    subst h
    decide
  · rw [natCharsAux_eq_digits n n le_rfl]
    unfold digitsToNat
    rw [foldl_digit_chars (Nat.digits 10 n) (fun d hd => Nat.digits_lt_base (by norm_num) hd) 0]
    simp [Nat.ofDigits_digits]

/-- `takeWhile` passes over a block of satisfying elements. -/
theorem takeWhile_append_all {p : Char → Bool} {a : Str} (b : Str)
    (h : ∀ x ∈ a, p x = true) : (a ++ b).takeWhile p = a ++ b.takeWhile p := by
  induction a with
  | nil => simp
  | cons c a' ih =>
    rw [List.cons_append, List.takeWhile_cons, h c (List.mem_cons_self c a'),
      ih fun x hx => h x (List.mem_cons_of_mem c hx)]
    rfl

/-- `dropWhile` passes over a block of satisfying elements. -/
theorem dropWhile_append_all {p : Char → Bool} {a : Str} (b : Str)
    (h : ∀ x ∈ a, p x = true) : (a ++ b).dropWhile p = b.dropWhile p := by
  induction a with
  | nil => simp
  | cons c a' ih =>
    rw [List.cons_append, List.dropWhile_cons, h c (List.mem_cons_self c a')]
    exact ih fun x hx => h x (List.mem_cons_of_mem c hx)

/-- `takeWhile` keeps a list of satisfying elements whole. -/
theorem takeWhile_eq_self {p : Char → Bool} {l : Str} (h : ∀ x ∈ l, p x = true) :
    l.takeWhile p = l := by
  have := takeWhile_append_all (p := p) (a := l) [] h
  simpa using this

/-- `dropWhile` consumes a list of satisfying elements entirely. -/
theorem dropWhile_eq_nil {p : Char → Bool} {l : Str} (h : ∀ x ∈ l, p x = true) :
    l.dropWhile p = [] := by
  have := dropWhile_append_all (p := p) (a := l) [] h
  simpa using this

/-- `dropWhile` keeps a list of failing elements whole. -/
theorem dropWhile_eq_self_of_neg {p : Char → Bool} {l : Str} (h : ∀ x ∈ l, p x = false) :
    l.dropWhile p = l := by
  cases l with
  | nil => rfl
  | cons c t =>
    rw [List.dropWhile_cons, h c (List.mem_cons_self c t)]
    simp

/-- A pattern is a prefix of itself followed by anything. -/
theorem isPrefixOf_append_self (pat b : Str) : pat.isPrefixOf (pat ++ b) = true := by
  rw [ List.isPrefixOf_iff_prefix]
  exact ⟨b, rfl⟩

/-- A prefix agrees with the list at every index it covers. -/
theorem getElem?_of_isPrefixOf {pat l : Str} (h : pat.isPrefixOf l = true)
    {j : ℕ} (hj : j < pat.length) : l[j]? = pat[j]? := by
  rw [ List.isPrefixOf_iff_prefix] at h
  obtain ⟨v, rfl⟩ := h
  rw [List.getElem?_append]
  rw [if_pos hj]

/-- A prefix relation fails at the first index where the lists differ. -/
theorem not_isPrefixOf_of_ne_head {c d : Char} {pat l : Str} (h : c ≠ d) :
    (c :: pat).isPrefixOf (d :: l) = false := by
  rw [show ((c :: pat).isPrefixOf (d :: l)) = ((c == d) && pat.isPrefixOf l) from rfl]
  simp [h]

/-- The leftmost scan skips a region where the matcher fails on every long
suffix. -/
theorem scanFirst_append {α : Type} (f : Str → Option α) (a b : Str)
    (h : ∀ t : Str, t <:+ (a ++ b) → b.length < t.length → f t = none) :
    scanFirst f (a ++ b) = scanFirst f b := by
  induction a with
  | nil => simp
  | cons c a' ih =>
    have h0 : f (c :: (a' ++ b)) = none := by
      refine h _ (List.suffix_refl _) ?_
      simp only [List.length_cons, List.length_append]
      omega
    rw [List.cons_append, show scanFirst f (c :: (a' ++ b))
      = (match f (c :: (a' ++ b)) with | some a => some a | none => scanFirst f (a' ++ b)) from rfl,
      h0]
    exact ih fun t ht hlen => h t (ht.trans (List.suffix_cons c (a' ++ b))) hlen

/-- `findSeq` locates the first occurrence after a clean region. -/
theorem findSeq_append {pat : Str} (a b : Str) (hpat : pat ≠ [])
    (h : ∀ j, j < a.length → pat.isPrefixOf (a.drop j ++ b) = false)
    (h2 : pat.isPrefixOf b = true) :
    findSeq pat (a ++ b) = some a.length := by
  induction a with
  | nil =>
    cases b with
    | nil =>
      rw [ List.isPrefixOf_iff_prefix] at h2
      have := List.eq_nil_of_prefix_nil h2
      exact absurd this hpat
    | cons c t =>
      simp only [List.nil_append, List.length_nil]
      rw [show findSeq pat (c :: t)
        = (if pat.isPrefixOf (c :: t) then some 0 else (findSeq pat t).map (· + 1)) from rfl,
        if_pos h2]
  | cons c a' ih =>
    have h0 : pat.isPrefixOf (c :: (a' ++ b)) = false := by
      have := h 0 (Nat.succ_pos a'.length)
      simpa using this
    rw [List.cons_append, show findSeq pat (c :: (a' ++ b))
      = (if pat.isPrefixOf (c :: (a' ++ b)) then some 0
         else (findSeq pat (a' ++ b)).map (· + 1)) from rfl, h0]
    simp only [Bool.false_eq_true, if_false]
    rw [ih fun j hj => by simpa using h (j + 1) (by simpa using hj)]
    simp [List.length_cons]

/-- `findSeq` returns nothing when no suffix starts with the pattern. -/
theorem findSeq_eq_none {pat : Str} (l : Str)
    (h : ∀ j, pat.isPrefixOf (l.drop j) = false) : findSeq pat l = none := by
  induction l with
  | nil =>
    have h0 := h 0
    have hp : pat ≠ [] := by
      intro he
      subst he
      simp [List.isPrefixOf] at h0
    simp only [findSeq]
    rw [if_neg (by simpa [List.isEmpty_iff] using hp)]
  | cons c t ih =>
    have h0 : pat.isPrefixOf (c :: t) = false := by simpa using h 0
    rw [show findSeq pat (c :: t)
      = (if pat.isPrefixOf (c :: t) then some 0 else (findSeq pat t).map (· + 1)) from rfl, h0]
    simp only [Bool.false_eq_true, if_false]
    rw [ih fun j => by simpa using h (j + 1)]
    rfl

/-- Digits are not `parseFloat` whitespace. -/
theorem isSpaceCh_of_isDigit {c : Char} (h : c.isDigit = true) : isSpaceCh c = false := by
  cases hc : isSpaceCh c
  · rfl
  · exfalso
    simp only [isSpaceCh, Bool.or_eq_true, decide_eq_true_eq] at hc
    rcases hc with ((rfl | rfl) | rfl) | rfl <;> exact absurd h (by decide)

/-- `parseFloat` of a non-empty all-digit string is the exact integer value
of its digits. -/
theorem jsParseFloat_digits (l : Str) (hne : l ≠ []) (hd : ∀ ch ∈ l, ch.isDigit = true) :
    jsParseFloat l = .num ((digitsToNat l : ℕ) : ℚ) := by
  obtain ⟨c, t, rfl⟩ : ∃ c t, l = c :: t := by
    cases l with
    | nil => exact absurd rfl hne
    | cons c t => exact ⟨c, t, rfl⟩
  have hcd : c.isDigit = true := hd c (List.mem_cons_self c t)
  have e1 : List.dropWhile isSpaceCh (c :: t) = c :: t :=
    dropWhile_eq_self_of_neg fun ch hch => isSpaceCh_of_isDigit (hd ch hch)
  have e2 : (c = '-') = False := eq_false (ne_of_isDigit hcd (by decide))
  have e3 : (c = '+') = False := eq_false (ne_of_isDigit hcd (by decide))
  have eInf : ("Infinity".toList.isPrefixOf (c :: t)) = false := by
    rw [show "Infinity".toList = 'I' :: "nfinity".toList from rfl]
    exact not_isPrefixOf_of_ne_head (Ne.symm (ne_of_isDigit hcd (by decide)))
  have etake : List.takeWhile Char.isDigit (c :: t) = c :: t := takeWhile_eq_self hd
  have edrop : List.dropWhile Char.isDigit (c :: t) = [] := dropWhile_eq_nil hd
  simp only [jsParseFloat, e1, List.head?_cons, Option.some.injEq, e2, e3, decide_False,
    Bool.or_self, Bool.false_eq_true, if_false, eInf, etake, edrop, List.isEmpty_cons,
    Bool.false_and, List.head?_nil, List.length_nil, pow_zero, mul_one]
  simp [digitsToNat, Rat.mkRat_one]

/-- `parseFloat` of a digit rendering is the exact number. -/
theorem jsParseFloat_natChars (x : ℕ) : jsParseFloat (natChars x) = .num (x : ℚ) := by
  rw [jsParseFloat_digits (natChars x) (natChars_ne_nil x) (natChars_digits x),
    digitsToNat_natChars]

/-- `splitCh` never returns the empty list of segments. -/
theorem splitCh_ne_nil (sep : Char) (l : Str) : splitCh sep l ≠ [] := by
  cases l with
  | nil => simp [splitCh]
  | cons c t =>
    rw [show splitCh sep (c :: t)
      = (match splitCh sep t with
         | [] => [[]]
         | seg :: rest => if c = sep then [] :: seg :: rest else (c :: seg) :: rest) from rfl]
    cases hsp : splitCh sep t with
    | nil => simp
    | cons seg rest =>
      split
      · simp
      · split <;> simp

/-- A separator-free list is one whole segment. -/
theorem splitCh_no_sep (sep : Char) (l : Str) (h : sep ∉ l) : splitCh sep l = [l] := by
  induction l with
  | nil => rfl
  | cons c t ih =>
    have hct : c ≠ sep := fun he => h (he ▸ List.mem_cons_self c t)
    rw [show splitCh sep (c :: t)
      = (match splitCh sep t with
         | [] => [[]]
         | seg :: rest => if c = sep then [] :: seg :: rest else (c :: seg) :: rest) from rfl,
      ih fun hm => h (List.mem_cons_of_mem c hm)]
    simp [hct]

/-- Splitting after a separator-free block yields that block first. -/
theorem splitCh_first (sep : Char) (a b : Str) (ha : sep ∉ a) :
    splitCh sep (a ++ sep :: b) = a :: splitCh sep b := by
  induction a with
  | nil =>
    rw [List.nil_append, show splitCh sep (sep :: b)
      = (match splitCh sep b with
         | [] => [[]]
         | seg :: rest => if sep = sep then [] :: seg :: rest else (sep :: seg) :: rest) from rfl]
    cases hsp : splitCh sep b with
    | nil => exact absurd hsp (splitCh_ne_nil sep b)
    | cons seg rest => simp
  | cons c a' ih =>
    have hct : c ≠ sep := fun he => ha (he ▸ List.mem_cons_self c a')
    rw [List.cons_append, show splitCh sep (c :: (a' ++ sep :: b))
      = (match splitCh sep (a' ++ sep :: b) with
         | [] => [[]]
         | seg :: rest => if c = sep then [] :: seg :: rest else (c :: seg) :: rest) from rfl,
      ih fun hm => ha (List.mem_cons_of_mem c hm)]
    simp [hct]

/-- A pattern occurring in the middle of a string is found by `hasSeq`. -/
theorem hasSeq_append_mid (pat x y : Str) (hp : pat ≠ []) :
    hasSeq pat (x ++ pat ++ y) = true := by
  induction x with
  | nil =>
    have hpre : pat.isPrefixOf (pat ++ y) = true := isPrefixOf_append_self pat y
    simp only [List.nil_append]
    cases hc : pat ++ y with
    | nil =>
      cases pat with
      | nil => exact absurd rfl hp
      | cons p ps => cases hc
    | cons c t =>
      rw [hc] at hpre
      simp [hasSeq, findSeq, hpre]
  | cons c x' ih =>
    simp only [List.cons_append, hasSeq, findSeq]
    split
    · rfl
    · simpa [hasSeq] using ih

/-- The lazy `(.+?)` loop slides over a region with no tail-pattern match. -/
theorem srcLoop_append (a : Str) : ∀ (pre b : Str),
    (∀ j, j < a.length → srcMatchAt (a.drop j ++ b) = false ∨ pre ++ a.take j = []) →
    srcLoop pre (a ++ b) = srcLoop (pre ++ a) b := by
  induction a with
  | nil => intro pre b _; simp
  | cons c a' ih =>
    intro pre b hcond
    have h0 := hcond 0 (Nat.succ_pos a'.length)
    have hstep : (srcMatchAt (c :: (a' ++ b)) && !pre.isEmpty) = false := by
      rcases h0 with h | h
      · simp only [List.drop_zero, List.cons_append] at h
        rw [h]
        rfl
      · simp only [List.take_zero, List.append_nil] at h
        subst h
        simp
    rw [List.cons_append, show srcLoop pre (c :: (a' ++ b))
      = (if srcMatchAt (c :: (a' ++ b)) && !pre.isEmpty then some pre
         else srcLoop (pre ++ [c]) (a' ++ b)) from rfl, hstep]
    simp only [Bool.false_eq_true, if_false]
    rw [ih (pre ++ [c]) b ?_]
    · simp
    · intro j hj
      have := hcond (j + 1) (by simpa using hj)
      rcases this with h | h
      · exact Or.inl h
      · simp only [List.take_succ_cons, List.append_eq_nil] at h
        exact (List.cons_ne_nil _ _ h.2).elim

/-- The lazy loop stops as soon as the tail pattern matches after a
non-empty candidate. -/
theorem srcLoop_found (pre l : Str) (hpre : pre ≠ []) (hm : srcMatchAt l = true)
    (hl : l ≠ []) : srcLoop pre l = some pre := by
  cases l with
  | nil => exact absurd rfl hl
  | cons c t =>
    rw [show srcLoop pre (c :: t)
      = (if srcMatchAt (c :: t) && !pre.isEmpty then some pre
         else srcLoop (pre ++ [c]) t) from rfl]
    rw [if_pos]
    rw [hm]
    simpa [List.isEmpty_iff] using hpre

/-- `kindMid` is the separator segment followed by the marker. -/
theorem kindMid_eq (k : MetricKind) : kindMid k = sepChars k ++ bandMarker := by
  cases k <;> rfl

/-- A suffix of a concatenation is a suffix of the right block, or a
non-empty suffix of the left block followed by the whole right block. -/
theorem suffix_split {A B t : Str} (h : t <:+ A ++ B) :
    t <:+ B ∨ ∃ a', a' <:+ A ∧ a' ≠ [] ∧ t = a' ++ B := by
  obtain ⟨u, hu⟩ := h
  by_cases hlen : A.length ≤ u.length
  · left
    refine ⟨u.drop A.length, ?_⟩
    have h1 : (u ++ t).drop A.length = (A ++ B).drop A.length := by rw [hu]
    rw [List.drop_append_eq_append_drop, List.drop_left] at h1
    rw [Nat.sub_eq_zero_of_le hlen, List.drop_zero] at h1
    exact h1
  · right
    push_neg at hlen
    refine ⟨A.drop u.length, List.drop_suffix _ _, ?_, ?_⟩
    · intro hnil
      have := congrArg List.length hnil
      simp only [List.length_drop, List.length_nil] at this
      omega
    · have h1 : (u ++ t).drop u.length = (A ++ B).drop u.length := by rw [hu]
      rw [List.drop_left, List.drop_append_eq_append_drop,
        Nat.sub_eq_zero_of_le (le_of_lt hlen), List.drop_zero] at h1
      exact h1

/-- Every character of a suffix belongs to the original list. -/
theorem mem_of_suffix {a : Char} {l₁ l₂ : Str} (h : l₁ <:+ l₂) (ha : a ∈ l₁) : a ∈ l₂ := by
  obtain ⟨u, rfl⟩ := h
  exact List.mem_append_right u ha

/-- The heart of the first-occurrence argument: the `income_band_` marker
cannot begin inside the source segment of a constructed metric.  If it did,
either the underscore at marker offset 6 would land on a letter of the
source, or the source's last six letters would read `income` and marker
offset 7 (`b`) would land on the separator region, which continues with
`income_band_` or `count_income_band_` — a mismatch either way. -/
theorem no_marker_in_source (s' : Str) (halpha : ∀ c ∈ s', isLowerAlpha c = true)
    (hne : s' ≠ []) (k : MetricKind) (rest : Str) :
    bandMarker.isPrefixOf (s' ++ (sepChars k ++ (bandMarker ++ rest))) = false := by
  rw [Bool.eq_false_iff]
  intro hpre
  have hget := fun (j : ℕ) (hj : j < bandMarker.length) =>
    getElem?_of_isPrefixOf hpre (j := j) hj
  by_cases h6 : 6 < s'.length
  · have hv := hget 6 (by decide)
    rw [List.getElem?_append, if_pos h6] at hv
    rw [List.getElem?_eq_getElem h6] at hv
    have : s'[6] = '_' := by
      have hmk : bandMarker[6]? = some '_' := by decide
      rw [hmk] at hv
      exact Option.some.injEq _ _ ▸ hv
    exact absurd this
      (ne_of_alpha (halpha _ (List.getElem_mem h6)) (by decide))
  · push_neg at h6
    have hlen1 : 1 ≤ s'.length := by
      cases s' with
      | nil => exact absurd rfl hne
      | cons c t => simp
    have hsep0 : (sepChars k ++ (bandMarker ++ rest))[0]? = some '_' := by
      cases k <;> rfl
    have hv : bandMarker[s'.length]? = some '_' := by
      have h0 := hget s'.length (by simp [bandMarker]; omega)
      rw [show (s' ++ (sepChars k ++ (bandMarker ++ rest)))[s'.length]?
          = (sepChars k ++ (bandMarker ++ rest))[0]? from by
        rw [List.getElem?_append_right le_rfl, Nat.sub_self]] at h0
      rw [hsep0] at h0
      exact h0.symm
    have hs6 : s'.length = 6 := by
      set nn := s'.length with hnn
      interval_cases nn <;> revert hv <;> decide
    have hv7 : (s' ++ (sepChars k ++ (bandMarker ++ rest)))[7]? = some 'b' := by
      have h0 := hget 7 (by decide)
      rw [show bandMarker[7]? = some 'b' from by decide] at h0
      exact h0
    rw [show (7 : ℕ) = s'.length + 1 from by omega] at hv7
    rw [List.getElem?_append_right (Nat.le_add_right _ _)] at hv7
    rw [Nat.add_sub_cancel_left] at hv7
    cases k with
    | amount =>
      have : (sepChars MetricKind.amount ++ (bandMarker ++ rest))[1]? = some 'i' := by
        rw [show sepChars MetricKind.amount ++ (bandMarker ++ rest)
            = '_' :: (bandMarker ++ rest) from rfl]
        rfl
      rw [this] at hv7
      cases hv7
    | count =>
      have : (sepChars MetricKind.count ++ (bandMarker ++ rest))[1]? = some 'c' := by
        rfl
      rw [this] at hv7
      cases hv7

/-- A constructed metric splits as prefix region, marker and tail. -/
theorem mkBandMetric_decomp (source : Str) (k : MetricKind) (n lower : ℕ) (upper : Option ℕ) :
    mkBandMetric source k n lower upper
      = ("hmrc/".toList ++ (source ++ sepChars k)) ++ (bandMarker ++ bandTail n lower upper) := by
  cases k <;>
    simp [mkBandMetric, kindMid, sepChars, bandMarker, bandTail, toSepChars, List.append_assoc]

/-- The band regex matcher succeeds at the marker position of a constructed
metric and captures the band number and the range. -/
theorem tryBandAt_marker (n lower : ℕ) (upper : Option ℕ) :
    tryBandAt (bandMarker ++ bandTail n lower upper)
      = some (n, natChars lower ++ toSepChars ++ upperChars upper) := by
  have hud : Char.isDigit '_' = false := by decide
  have h1 : (natChars n).isEmpty = false := by
    rw [Bool.eq_false_iff]
    intro hh
    exact natChars_ne_nil n (List.isEmpty_iff.mp hh)
  have h2 : (natChars lower ++ toSepChars ++ upperChars upper).isEmpty = false := by
    rw [Bool.eq_false_iff]
    intro hh
    have h3 := List.isEmpty_iff.mp hh
    rw [List.append_eq_nil, List.append_eq_nil] at h3
    exact natChars_ne_nil lower h3.1.1
  unfold tryBandAt
  rw [if_pos (isPrefixOf_append_self bandMarker (bandTail n lower upper))]
  simp only [List.drop_left]
  rw [show bandTail n lower upper
    = natChars n ++ '_' :: (natChars lower ++ toSepChars ++ upperChars upper) from rfl]
  rw [takeWhile_append_all _ (natChars_digits n), dropWhile_append_all _ (natChars_digits n)]
  rw [List.takeWhile_cons, List.dropWhile_cons, hud]
  simp only [Bool.false_eq_true, if_false, List.append_nil, h1, h2, digitsToNat_natChars]

/-- The leftmost scan returns the matcher's answer when it succeeds at the
very first position. -/
theorem scanFirst_cons_some {α : Type} (f : Str → Option α) (c : Char) (t : Str) (x : α)
    (hf : f (c :: t) = some x) : scanFirst f (c :: t) = some x := by
  rw [show scanFirst f (c :: t)
    = (match f (c :: t) with | some a => some a | none => scanFirst f t) from rfl, hf]

/-- The band regex matcher fails at every position strictly before the
marker of a constructed metric with an all-letters source. -/
theorem tryBandAt_suffix_none (source : Str) (halpha : ∀ c ∈ source, isLowerAlpha c = true)
    (k : MetricKind) (tail t : Str)
    (ht : t <:+ ("hmrc/".toList ++ (source ++ sepChars k)) ++ (bandMarker ++ tail))
    (hlen : (bandMarker ++ tail).length < t.length) : tryBandAt t = none := by
  have hpre : bandMarker.isPrefixOf t = false := by
    rcases suffix_split ht with h | ⟨a', ha', hne, rfl⟩
    · exact absurd (List.IsSuffix.length_le h) (by omega)
    · rcases suffix_split ha' with h2 | ⟨h', hh', hne', rfl⟩
      · rcases suffix_split h2 with h3 | ⟨s', hs', hne2, rfl⟩
        · cases a' with
          | nil => exact absurd rfl hne
          | cons c rest =>
            have hall : ∀ x ∈ sepChars k, x ≠ 'i' := by cases k <;> decide
            have hci : c ≠ 'i' := hall c (mem_of_suffix h3 (List.mem_cons_self c rest))
            rw [List.cons_append,
              show bandMarker = 'i' :: "ncome_band_".toList from rfl]
            exact not_isPrefixOf_of_ne_head (Ne.symm hci)
        · have halpha2 : ∀ c ∈ s', isLowerAlpha c = true :=
            fun c hc => halpha c (mem_of_suffix hs' hc)
          rw [List.append_assoc]
          exact no_marker_in_source s' halpha2 hne2 k tail
      · cases h' with
        | nil => exact absurd rfl hne'
        | cons c rest =>
          have hall : ∀ x ∈ "hmrc/".toList, x ≠ 'i' := by decide
          have hci : c ≠ 'i' := hall c (mem_of_suffix hh' (List.mem_cons_self c rest))
          rw [List.cons_append, List.cons_append,
            show bandMarker = 'i' :: "ncome_band_".toList from rfl]
          exact not_isPrefixOf_of_ne_head (Ne.symm hci)
  unfold tryBandAt
  rw [hpre]
  simp

/-- The first (and only) band-regex match in a constructed metric is the
intended one: the scan yields the band number and the range segment. -/
theorem scanFirst_mkBandMetric (source : Str) (k : MetricKind) (n lower : ℕ) (upper : Option ℕ)
    (halpha : ∀ c ∈ source, isLowerAlpha c = true) :
    scanFirst tryBandAt (mkBandMetric source k n lower upper)
      = some (n, natChars lower ++ toSepChars ++ upperChars upper) := by
  rw [mkBandMetric_decomp]
  rw [scanFirst_append tryBandAt _ _
    (fun t ht hlen => tryBandAt_suffix_none source halpha k (bandTail n lower upper) t ht hlen)]
  rw [show bandMarker ++ bandTail n lower upper
    = 'i' :: ("ncome_band_".toList ++ bandTail n lower upper) from rfl]
  apply scanFirst_cons_some
  rw [show 'i' :: ("ncome_band_".toList ++ bandTail n lower upper)
    = bandMarker ++ bandTail n lower upper from rfl]
  exact tryBandAt_marker n lower upper

/-- `parseBand` on a constructed metric returns the band number, the range
segment and the two bounds as exact numbers (`inf` giving an open bound). -/
theorem parseBand_mkBandMetric (source : Str) (k : MetricKind) (n lower : ℕ) (upper : Option ℕ)
    (halpha : ∀ c ∈ source, isLowerAlpha c = true) :
    parseBand (mkBandMetric source k n lower upper)
      = .ok (some ⟨n, natChars lower ++ toSepChars ++ upperChars upper,
          .num (lower : ℚ), upper.map fun u : ℕ => JsNum.num (u : ℚ)⟩) := by
  have hfiltd : ∀ m : ℕ, ((natChars m).filter fun c => c ≠ '_') = natChars m := by
    intro m
    rw [List.filter_eq_self]
    intro a ha
    exact decide_eq_true (ne_of_isDigit (natChars_digits m a ha) (by decide))
  have hdj : ∀ (m : ℕ) (X : Str) (j : ℕ), j < (natChars m).length →
      toSepChars.isPrefixOf ((natChars m).drop j ++ X) = false := by
    intro m X j hj
    rw [List.drop_eq_getElem_cons hj, List.cons_append,
      show toSepChars = '_' :: "to_".toList from rfl]
    exact not_isPrefixOf_of_ne_head
      (Ne.symm (ne_of_isDigit (natChars_digits m _ (List.getElem_mem hj)) (by decide)))
  unfold parseBand
  rw [scanFirst_mkBandMetric source k n lower upper halpha]
  have hfind : findSeq toSepChars (natChars lower ++ toSepChars ++ upperChars upper)
      = some (natChars lower).length := by
    rw [List.append_assoc]
    refine findSeq_append _ _ (by decide) (fun j hj => hdj lower _ j hj)
      (isPrefixOf_append_self toSepChars (upperChars upper))
  have htake : (natChars lower ++ toSepChars ++ upperChars upper).take (natChars lower).length
      = natChars lower := by
    rw [List.append_assoc]
    exact List.take_left _ _
  have hdrop : (natChars lower ++ toSepChars ++ upperChars upper).drop
      ((natChars lower).length + 4) = upperChars upper := by
    rw [show (natChars lower).length + 4 = (natChars lower ++ toSepChars).length from by
      simp [toSepChars]]
    exact List.drop_left _ _
  cases upper with
  | none =>
    have hfind2 : findSeq toSepChars ("inf".toList) = none := by decide
    simp only [upperChars] at hfind htake hdrop ⊢
    simp only [hfind, htake, hdrop, hfind2, hfiltd, jsParseFloat_natChars]
    rw [if_pos trivial]
    rfl
  | some u =>
    have hne : ¬ (natChars u = "inf".toList) := by
      intro he
      have hi : 'i' ∈ natChars u := by rw [he]; decide
      exact absurd (natChars_digits u 'i' hi) (by decide)
    have hfind2 : findSeq toSepChars (natChars u) = none := by
      apply findSeq_eq_none
      intro j
      by_cases hj : j < (natChars u).length
      · have h0 := hdj u [] j hj
        rw [List.append_nil] at h0
        exact h0
      · rw [List.drop_eq_nil_of_le (by omega)]
        decide
    simp only [upperChars] at hfind htake hdrop ⊢
    simp only [hfind, htake, hdrop, hfind2, hfiltd, jsParseFloat_natChars]
    rw [if_neg hne]
    rfl

/-- The income-source extraction of `IncomeBands.tsx` recovers the source
from a constructed metric whose source is a non-empty all-letters word. -/
theorem extract_mkBandMetric (source : Str) (k : MetricKind) (n lower : ℕ) (upper : Option ℕ)
    (hs : source ≠ []) (halpha : ∀ c ∈ source, isLowerAlpha c = true) :
    extractIncomeSource (mkBandMetric source k n lower upper) = some source := by
  have hh : "hmrc/".toList = "hmrc".toList ++ ['/'] := by decide
  have hdec : mkBandMetric source k n lower upper
      = "hmrc".toList ++ '/' :: (source ++ (kindMid k ++ bandTail n lower upper)) := by
    cases k <;> simp [mkBandMetric, kindMid, bandTail, toSepChars, hh, List.append_assoc]
  have hns : '/' ∉ source ++ (kindMid k ++ bandTail n lower upper) := by
    intro hm
    rcases List.mem_append.mp hm with h | h
    · exact absurd (halpha '/' h) (by decide)
    · rcases List.mem_append.mp h with h2 | h2
      · cases k with
        | amount => exact absurd h2 (by decide)
        | count => exact absurd h2 (by decide)
      · rw [show bandTail n lower upper
          = natChars n ++ '_' :: (natChars lower ++ toSepChars ++ upperChars upper) from
            rfl] at h2
        rcases List.mem_append.mp h2 with h3 | h3
        · exact absurd (natChars_digits n '/' h3) (by decide)
        · rcases List.mem_cons.mp h3 with h4 | h4
          · exact absurd h4 (by decide)
          · rcases List.mem_append.mp h4 with h5 | h5
            · rcases List.mem_append.mp h5 with h6 | h6
              · exact absurd (natChars_digits lower '/' h6) (by decide)
              · exact absurd h6 (by decide)
            · cases upper with
              | none => exact absurd h5 (by decide)
              | some u =>
                exact absurd (natChars_digits u '/' (by simpa [upperChars] using h5)) (by decide)
  have hhas : hasSeq bandMarker (mkBandMetric source k n lower upper) = true := by
    rw [mkBandMetric_decomp, ← List.append_assoc]
    exact hasSeq_append_mid bandMarker _ _ (by decide)
  have hcond : ∀ j, j < source.length →
      srcMatchAt (source.drop j ++ ((sepChars k ++ bandMarker) ++ bandTail n lower upper)) = false
        ∨ ([] : Str) ++ source.take j = [] := by
    intro j hj
    left
    rw [List.drop_eq_getElem_cons hj, List.cons_append]
    have hc : isLowerAlpha source[j] = true := halpha _ (List.getElem_mem hj)
    unfold srcMatchAt
    rw [show "_count_income_band_".toList = '_' :: "count_income_band_".toList from rfl,
      show "_income_band_".toList = '_' :: "income_band_".toList from rfl]
    rw [not_isPrefixOf_of_ne_head (Ne.symm (ne_of_alpha hc (by decide))),
      not_isPrefixOf_of_ne_head (Ne.symm (ne_of_alpha hc (by decide)))]
    rfl
  unfold extractIncomeSource
  rw [if_pos hhas]
  rw [hdec]
  rw [splitCh_first '/' "hmrc".toList _ (by decide)]
  rw [splitCh_no_sep '/' _ hns]
  show srcLoop [] (source ++ (kindMid k ++ bandTail n lower upper)) = some source
  rw [kindMid_eq, ← List.append_assoc, List.append_assoc]
  rw [srcLoop_append source [] ((sepChars k ++ bandMarker) ++ bandTail n lower upper) hcond]
  rw [List.nil_append]
  apply srcLoop_found source _ hs
  · cases k with
    | amount =>
      rw [show sepChars MetricKind.amount ++ bandMarker = "_income_band_".toList from by decide]
      unfold srcMatchAt
      rw [isPrefixOf_append_self]
      simp
    | count =>
      rw [show sepChars MetricKind.count ++ bandMarker
        = "_count_income_band_".toList from by decide]
      unfold srcMatchAt
      rw [isPrefixOf_append_self]
      simp
  · intro h0
    rw [List.append_eq_nil, List.append_eq_nil] at h0
    exact absurd h0.1.2 (by decide)

/-- A constructed metric is its own kind's `bandsData` filter string
followed by the tail. -/
theorem mkBandMetric_eq_pfx (source : Str) (k : MetricKind) (n lower : ℕ) (upper : Option ℕ) :
    mkBandMetric source k n lower upper = bandPfx source k ++ bandTail n lower upper := by
  cases k <;> simp [mkBandMetric, bandPfx, kindMid, bandTail, toSepChars, List.append_assoc]

/-- A constructed metric satisfies its own kind's filter string. -/
theorem bandPfx_self_isPrefixOf (source : Str) (k : MetricKind) (n lower : ℕ)
    (upper : Option ℕ) :
    (bandPfx source k).isPrefixOf (mkBandMetric source k n lower upper) = true := by
  rw [mkBandMetric_eq_pfx]
  exact isPrefixOf_append_self _ _

/-- An amount metric does not satisfy the count filter string for the same
source: after the shared `hmrc/<source>_` region the two continue with
`count_income_band_` and `income_band_` respectively. -/
theorem bandPfx_count_not_amount (source : Str) (n lower : ℕ) (upper : Option ℕ) :
    (bandPfx source .count).isPrefixOf (mkBandMetric source .amount n lower upper) = false := by
  rw [Bool.eq_false_iff]
  intro h
  rw [ List.isPrefixOf_iff_prefix] at h
  rw [mkBandMetric_eq_pfx] at h
  have e1 : bandPfx source .count
      = ("hmrc/".toList ++ source ++ ['_']) ++ "count_income_band_".toList := by
    simp [bandPfx, List.append_assoc,
      show "_count_income_band_".toList = ['_'] ++ "count_income_band_".toList from by decide]
  have e2 : bandPfx source .amount ++ bandTail n lower upper
      = ("hmrc/".toList ++ source ++ ['_'])
        ++ ("income_band_".toList ++ bandTail n lower upper) := by
    simp [bandPfx, List.append_assoc,
      show "_income_band_".toList = ['_'] ++ "income_band_".toList from by decide]
  rw [e1, e2] at h
  have h2 := (List.prefix_append_right_inj _).mp h
  rw [show "count_income_band_".toList = 'c' :: "ount_income_band_".toList from rfl,
    show "income_band_".toList ++ bandTail n lower upper
      = 'i' :: ("ncome_band_".toList ++ bandTail n lower upper) from rfl,
    List.cons_prefix_cons] at h2
  exact absurd h2.1 (by decide)

/-- The composite parse (source extraction, kind test, band parse) of a
constructed metric with a non-empty all-letters source recovers the tuple. -/
theorem recoverTuple_mkBandMetric (source : Str) (k : MetricKind) (n lower : ℕ)
    (upper : Option ℕ) (hs : source ≠ [])
    (halpha : ∀ c ∈ source, isLowerAlpha c = true) :
    recoverTuple (mkBandMetric source k n lower upper)
      = .ok (some ⟨source, k, n, .num (lower : ℚ),
          upper.map fun u : ℕ => JsNum.num (u : ℚ)⟩) := by
  unfold recoverTuple
  cases k with
  | amount =>
    simp only [extract_mkBandMetric source MetricKind.amount n lower upper hs halpha,
      bandPfx_count_not_amount, Bool.false_eq_true, if_false,
      bandPfx_self_isPrefixOf, eq_self_iff_true, if_true,
      parseBand_mkBandMetric source MetricKind.amount n lower upper halpha]
  | count =>
    simp only [extract_mkBandMetric source MetricKind.count n lower upper hs halpha,
      bandPfx_self_isPrefixOf, eq_self_iff_true, if_true,
      parseBand_mkBandMetric source MetricKind.count n lower upper halpha]

/-- The band aggregator on a single record carrying a constructed metric
with band number other than 55 returns exactly that parsed band point. -/
theorem bandsData_single_mkBandMetric (source : Str) (k : MetricKind) (n lower : ℕ)
    (upper : Option ℕ) (hs : source ≠ [])
    (halpha : ∀ c ∈ source, isLowerAlpha c = true) (h55 : n ≠ 55) (r : TrainingRec)
    (hr : r.metric = mkBandMetric source k n lower upper) :
    bandsData [r] source k
      = .ok [⟨⟨n, natChars lower ++ toSepChars ++ upperChars upper, .num (lower : ℚ),
          upper.map fun u : ℕ => JsNum.num (u : ℚ)⟩, r.estimate, r.target, r.error,
          r.relAbsError⟩] := by
  have hsE : source.isEmpty = false := by
    rw [Bool.eq_false_iff]
    intro hh
    exact hs (List.isEmpty_iff.mp hh)
  have hfilt : ([r].filter fun x => (bandPfx source k).isPrefixOf x.metric) = [r] := by
    rw [List.filter_eq_self]
    intro a ha
    rw [List.mem_singleton] at ha
    show (bandPfx source k).isPrefixOf a.metric = true
    rw [ha, hr]
    exact bandPfx_self_isPrefixOf source k n lower upper
  unfold bandsData
  rw [hsE]
  simp only [Bool.false_eq_true, if_false]
  rw [hfilt]
  simp only [collectBands, hr, parseBand_mkBandMetric source k n lower upper halpha, h55,
    if_false, sortCmp, insertCmp]

/-- C5 counterexample: the round-trip of banded metrics fails as stated.
For the tuple `("x_count", amount, 3, 10, 20)` the constructed metric is
`hmrc/x_count_income_band_3_10_to_20`; the lazy source regex
`^(.+?)_(?:count_)?income_band_` lets the optional `count_` group absorb
the tail of the source, so the components parse the metric back as
`("x", count, 3, 10, 20)`, not the original tuple. -/
theorem band_roundTrip_counterexample :
    recoverTuple (mkBandMetric "x_count".toList .amount 3 10 (some 20))
      = .ok (some ⟨"x".toList, .count, 3, .num 10, some (.num 20)⟩) ∧
    recoverTuple (mkBandMetric "x_count".toList .amount 3 10 (some 20))
      ≠ .ok (some ⟨"x_count".toList, .amount, 3, .num 10, some (.num 20)⟩) :=
  ⟨by decide, by decide⟩

/-- C5 (amended): the round-trip holds for sources made of lower-case
letters only.  For every tuple `(source, kind, n, lower, upper)` with a
non-empty all-letters source, parsing the constructed metric with the
components of `IncomeBands.tsx` (source extraction, kind filter test, band
parse) recovers the tuple exactly; and for `n ≠ 55` the band aggregator fed
one record carrying that metric returns exactly that band point, for both
finite and open-ended upper bounds. -/
theorem band_roundTrip_amended (source : Str) (k : MetricKind) (n lower : ℕ)
    (upper : Option ℕ) (hs : source ≠ [])
    (halpha : ∀ c ∈ source, isLowerAlpha c = true) (h55 : n ≠ 55) (r : TrainingRec)
    (hr : r.metric = mkBandMetric source k n lower upper) :
    recoverTuple (mkBandMetric source k n lower upper)
      = .ok (some ⟨source, k, n, .num (lower : ℚ),
          upper.map fun u : ℕ => JsNum.num (u : ℚ)⟩) ∧
    bandsData [r] source k
      = .ok [⟨⟨n, natChars lower ++ toSepChars ++ upperChars upper, .num (lower : ℚ),
          upper.map fun u : ℕ => JsNum.num (u : ℚ)⟩, r.estimate, r.target, r.error,
          r.relAbsError⟩] :=
  ⟨recoverTuple_mkBandMetric source k n lower upper hs halpha,
   bandsData_single_mkBandMetric source k n lower upper hs halpha h55 r hr⟩

/-- C5 witness: the amended round-trip at the concrete tuple
`("pension", amount, 3, 10000, 20000)`. -/
theorem band_roundTrip_amended_witness :
    recoverTuple (mkBandMetric "pension".toList .amount 3 10000 (some 20000))
      = .ok (some ⟨"pension".toList, .amount, 3, .num ((10000 : ℕ) : ℚ),
          some (.num ((20000 : ℕ) : ℚ))⟩) ∧
    bandsData [demoRec "A".toList (mkBandMetric "pension".toList .amount 3 10000 (some 20000))
        1 0 5] "pension".toList .amount
      = .ok [⟨⟨3, natChars 10000 ++ toSepChars ++ upperChars (some 20000),
          .num ((10000 : ℕ) : ℚ), some (.num ((20000 : ℕ) : ℚ))⟩, 1, 1, 0, 0⟩] := by
  have h := band_roundTrip_amended "pension".toList .amount 3 10000 (some 20000)
    (by decide) (by decide) (by decide)
    (demoRec "A".toList (mkBandMetric "pension".toList .amount 3 10000 (some 20000)) 1 0 5) rfl
  exact ⟨h.1, h.2⟩
